import Mathlib

/-!
Shallow embedding of the `bloom-filter-rs` repository (a precision bloom
filter) and verification of its specification claims.

Sources embedded (translated from the Rust under `src/src/`):
* `bit_array.rs` — `BitArray` over a vector of 64-bit words;
* `hash.rs`      — `HashStrategy` with Kirsch–Mitzenmacher double hashing;
* `params.rs`    — `BloomParameters` and the closed-form parameter solver;
* `accuracy.rs`  — `AccuracyTracker` counters and derived rates;
* `filter.rs`    — `PrecisionBloom` orchestration (insert / contains / clear).

Modelling conventions:
* `u64` values are `Nat` with wraparound written explicitly as `% 2 ^ 64`;
* a Rust `assert!`/`panic!` path is an `Option` returning `none`;
* `f64` arithmetic in the parameter solver and rate formulas is modelled over
  `ℝ` (the claims about it carry slack far exceeding double rounding error);
  the stored target rate (an input literal such as `0.01`) is kept as `ℚ`;
* the two external hash crates (ahash, seahash) are outside the repository,
  so an item is abstracted by its pair of 64-bit hash values `(h1, h2)`:
  hashing is deterministic within a process run, so this loses nothing for
  the claims, which never depend on concrete hash values.
-/

/-! ### Bit storage (`src/src/bit_array.rs`) -/

/-- `BitArray` from `bit_array.rs`: a vector of 64-bit words plus a bit
capacity.  Words are `Nat`s that stand for `u64` values. -/
structure BitArray where
  words : List Nat
  capacity : Nat
deriving DecidableEq, Repr

namespace BitArray

/-- `BitArray::new`: asserts `capacity > 0`, allocates `(capacity + 63) / 64`
zeroed words. -/
def new (capacity : Nat) : Option BitArray :=
  if 0 < capacity then
    some { words := List.replicate ((capacity + 63) / 64) 0, capacity := capacity }
  else
    none

/-- `BitArray::get`: asserts `index < capacity`, then tests
`words[index / 64] & (1 << (index % 64)) != 0`.  The word read is modelled
with `getD _ 0`; the word index is in range whenever the construction
invariant (`words.length ≥ ⌈capacity / 64⌉`) holds, which every constructor
guarantees. -/
def get (b : BitArray) (index : Nat) : Option Bool :=
  if index < b.capacity then
    some ((b.words.getD (index / 64) 0 &&& (1 <<< (index % 64))) != 0)
  else
    none

/-- `BitArray::set`: asserts `index < capacity`, then
`words[index / 64] |= 1 << (index % 64)`. -/
def set (b : BitArray) (index : Nat) : Option BitArray :=
  if index < b.capacity then
    some { b with
      words := b.words.set (index / 64)
        (b.words.getD (index / 64) 0 ||| (1 <<< (index % 64))) }
  else
    none

/-- `BitArray::clear`: `words.fill(0)`. -/
def clear (b : BitArray) : BitArray :=
  { b with words := List.replicate b.words.length 0 }

/-- Population count of one `u64` word (`u64::count_ones`). -/
def popCount (w : Nat) : Nat :=
  ((Finset.range 64).filter (fun i => w.testBit i)).card

/-- `BitArray::count_ones`: sum of per-word population counts. -/
def count_ones (b : BitArray) : Nat :=
  (b.words.map popCount).sum

/-- `BitArray::saturation`: `count_ones as f64 / capacity as f64`, modelled
as the exact ratio in `ℚ`. -/
def saturation (b : BitArray) : ℚ :=
  (b.count_ones : ℚ) / (b.capacity : ℚ)

/-- `BitArray::from_words`: asserts `words.len() >= (capacity + 63) / 64`
and otherwise accepts the words as given. -/
def from_words (words : List Nat) (capacity : Nat) : Option BitArray :=
  if (capacity + 63) / 64 ≤ words.length then
    some { words := words, capacity := capacity }
  else
    none

/-- The bit stored at position `i` (the value `get` reports when in bounds). -/
def bitAt (b : BitArray) (i : Nat) : Bool :=
  (b.words.getD (i / 64) 0).testBit (i % 64)

/-- The word vector is long enough for the declared capacity.  `new` makes
the two sides equal and `from_words` asserts exactly this inequality. -/
def SizeOk (b : BitArray) : Prop :=
  (b.capacity + 63) / 64 ≤ b.words.length

instance (b : BitArray) : Decidable b.SizeOk := by
  unfold SizeOk
  infer_instance

/-- The structural invariant claimed in the spec for bit arrays: exact word
count and no set bit at or above `capacity` (in particular the unused high
bits of the last word are 0). -/
def Inv (b : BitArray) : Prop :=
  b.words.length = (b.capacity + 63) / 64 ∧
  ∀ j, j < b.words.length → ∀ i, i < 64 →
    (b.words.getD j 0).testBit i = true → 64 * j + i < b.capacity

instance (b : BitArray) : Decidable b.Inv := by
  unfold Inv
  infer_instance

/-- A set/clear call on a bit array, for stating "after any sequence of
set/clear operations" claims. -/
inductive Op where
  | setBit (i : Nat)
  | clearAll
deriving DecidableEq, Repr

/-- Run one operation (a failing `set` assert is `none`). -/
def applyOp (b : BitArray) : Op → Option BitArray
  | .setBit i => b.set i
  | .clearAll => some b.clear

/-- Run a sequence of operations. -/
def applyOps (b : BitArray) : List Op → Option BitArray
  | [] => some b
  | op :: ops => do
    let b' ← b.applyOp op
    b'.applyOps ops

end BitArray

/-! ### Index generation (`src/src/hash.rs`) -/

/-- `HashStrategy` from `hash.rs`. -/
structure HashStrategy where
  num_hashes : Nat
  num_bits : Nat
deriving DecidableEq, Repr

namespace HashStrategy

/-- `HashStrategy::new`: asserts both fields positive. -/
def new (num_hashes num_bits : Nat) : Option HashStrategy :=
  if 0 < num_hashes ∧ 0 < num_bits then
    some { num_hashes := num_hashes, num_bits := num_bits }
  else
    none

/-- `HashStrategy::compute_index`:
`(h1.wrapping_add(i.wrapping_mul(h2))) % num_bits`, with `u64` wraparound
written out. -/
def compute_index (s : HashStrategy) (h1 h2 i : Nat) : Nat :=
  ((h1 + (i * h2) % 2 ^ 64) % 2 ^ 64) % s.num_bits

/-- `HashStrategy::hash_indices`: the k double-hashing positions of an item
whose two base hashes are `h1` (ahash) and `h2` (seahash). -/
def hash_indices (s : HashStrategy) (h1 h2 : Nat) : List Nat :=
  (List.range s.num_hashes).map (fun i => s.compute_index h1 h2 i)

end HashStrategy

/-! ### Parameter solver (`src/src/params.rs`) -/

/-- `BloomParameters` from `params.rs`.  The target rate (an `f64` input
literal such as `0.01`) is stored as `ℚ`. -/
structure BloomParameters where
  num_bits : Nat
  num_hashes : Nat
  expected_items : Nat
  false_positive_rate : ℚ
deriving DecidableEq, Repr

namespace BloomParameters

/-- `BloomParameters::validate`: all four invariants; `Ok`/`Err` is
modelled as a `Bool`. -/
def validate (p : BloomParameters) : Bool :=
  decide (0 < p.num_bits) && decide (0 < p.num_hashes) &&
    decide (0 < p.expected_items) &&
    (decide (0 < p.false_positive_rate) && decide (p.false_positive_rate < 1))

/-- `BloomParameters::calculate_fpr`: `p = (1 - e^(-k*n/m))^k` over `f64`,
modelled over `ℝ`; the `powf` exponent is the nonnegative integer `k`. -/
noncomputable def calculate_fpr (num_bits num_hashes expected_items : Nat) : ℝ :=
  (1 - Real.exp (-(num_hashes : ℝ) * (expected_items : ℝ) / (num_bits : ℝ)))
    ^ num_hashes

/-- `BloomParameters::actual_fpr`: recompute the rate at an actual item
count. -/
noncomputable def actual_fpr (p : BloomParameters) (actual_items : Nat) : ℝ :=
  calculate_fpr p.num_bits p.num_hashes actual_items

/-- `BloomParameters::from_item_count`: asserts `expected_items > 0` and
`0 < p < 1`, then computes `m = ceil(-n * ln p / (ln 2 * ln 2))` and
`k = max(1, ceil((m / n) * ln 2))`.  `ceil() as usize` is `Int.toNat ∘ ⌈·⌉`
(negative ceilings saturate to 0 in both). -/
noncomputable def from_item_count (expected_items : Nat)
    (false_positive_rate : ℚ) : Option BloomParameters :=
  if 0 < expected_items ∧ 0 < false_positive_rate ∧ false_positive_rate < 1 then
    let n : ℝ := (expected_items : ℝ)
    let p : ℝ := ((false_positive_rate : ℚ) : ℝ)
    let num_bits : Nat :=
      (⌈-n * Real.log p / (Real.log 2 * Real.log 2)⌉).toNat
    let num_hashes : Nat :=
      max (⌈((num_bits : ℝ) / n) * Real.log 2⌉).toNat 1
    some { num_bits := num_bits, num_hashes := num_hashes,
           expected_items := expected_items,
           false_positive_rate := false_positive_rate }
  else
    none

end BloomParameters

/-! ### Fill / accuracy tracking (`src/src/accuracy.rs`) -/

/-- `AccuracyTracker` from `accuracy.rs`. -/
structure AccuracyTracker where
  params : BloomParameters
  items_inserted : Nat
  queries_performed : Nat
deriving DecidableEq, Repr

namespace AccuracyTracker

/-- `AccuracyTracker::new`. -/
def new (params : BloomParameters) : AccuracyTracker :=
  { params := params, items_inserted := 0, queries_performed := 0 }

/-- `AccuracyTracker::record_insert`. -/
def record_insert (t : AccuracyTracker) : AccuracyTracker :=
  { t with items_inserted := t.items_inserted + 1 }

/-- `AccuracyTracker::record_query` — present in the source but, as the
claims examine, never invoked by the filter. -/
def record_query (t : AccuracyTracker) : AccuracyTracker :=
  { t with queries_performed := t.queries_performed + 1 }

/-- `AccuracyTracker::theoretical_fpr`. -/
def theoretical_fpr (t : AccuracyTracker) : ℚ :=
  t.params.false_positive_rate

/-- `AccuracyTracker::actual_fpr`. -/
noncomputable def actual_fpr (t : AccuracyTracker) : ℝ :=
  if t.items_inserted = 0 then 0 else t.params.actual_fpr t.items_inserted

/-- `AccuracyTracker::is_overfilled`: `items_inserted > expected_items`. -/
def is_overfilled (t : AccuracyTracker) : Bool :=
  decide (t.params.expected_items < t.items_inserted)

/-- `AccuracyTracker::reset`. -/
def reset (t : AccuracyTracker) : AccuracyTracker :=
  { t with items_inserted := 0, queries_performed := 0 }

end AccuracyTracker

/-! ### Filter orchestration (`src/src/filter.rs`) -/

/-- An item is abstracted by its two 64-bit base hashes
`(ahash value, seahash value)`; hashing is deterministic per item. -/
def Item : Type := Nat × Nat

instance : DecidableEq Item := instDecidableEqProd

/-- `PrecisionBloom` from `filter.rs`. -/
structure PrecisionBloom where
  bits : BitArray
  hash_strategy : HashStrategy
  params : BloomParameters
  tracker : AccuracyTracker
deriving DecidableEq, Repr

namespace PrecisionBloom

/-- `PrecisionBloom::new`: validates the parameters (an `Err` makes the
`expect` panic, hence `none`), then builds the aggregate. -/
def new (params : BloomParameters) : Option PrecisionBloom :=
  if params.validate then do
    let bits ← BitArray.new params.num_bits
    let hash_strategy ← HashStrategy.new params.num_hashes params.num_bits
    some { bits := bits, hash_strategy := hash_strategy, params := params,
           tracker := AccuracyTracker.new params }
  else
    none

/-- `PrecisionBloom::with_capacity`: solve the parameters, then `new`. -/
noncomputable def with_capacity (expected_items : Nat)
    (false_positive_rate : ℚ) : Option PrecisionBloom := do
  let params ← BloomParameters.from_item_count expected_items false_positive_rate
  new params

/-- The `for &index in &indices` loop body of `PrecisionBloom::insert`:
test each position, set it when unset, remember whether any was unset. -/
def insertBits (bits : BitArray) : List Nat → Bool → Option (BitArray × Bool)
  | [], was_absent => some (bits, was_absent)
  | index :: rest, was_absent => do
    let g ← bits.get index
    if !g then do
      let bits' ← bits.set index
      insertBits bits' rest true
    else
      insertBits bits rest was_absent

/-- `PrecisionBloom::insert`: record the insertion, then walk the hash
indices.  Returns the updated filter and the `was_absent` flag. -/
def insert (f : PrecisionBloom) (item : Item) : Option (PrecisionBloom × Bool) := do
  let tracker := f.tracker.record_insert
  let indices := f.hash_strategy.hash_indices item.1 item.2
  let p ← insertBits f.bits indices false
  some ({ f with bits := p.1, tracker := tracker }, p.2)

/-- The `indices.iter().all(...)` loop of `PrecisionBloom::contains`
(short-circuits at the first unset position, as Rust `all` does). -/
def containsAll (bits : BitArray) : List Nat → Option Bool
  | [] => some true
  | index :: rest => do
    let g ← bits.get index
    if g then containsAll bits rest else some false

/-- `PrecisionBloom::contains`: takes `&self` — it returns only a `Bool`
and cannot mutate the filter (in particular it never touches the tracker). -/
def contains (f : PrecisionBloom) (item : Item) : Option Bool :=
  containsAll f.bits (f.hash_strategy.hash_indices item.1 item.2)

/-- `PrecisionBloom::may_contain`: alias for `contains`. -/
def may_contain (f : PrecisionBloom) (item : Item) : Option Bool :=
  f.contains item

/-- `PrecisionBloom::clear`: zero the bits, reset the tracker. -/
def clear (f : PrecisionBloom) : PrecisionBloom :=
  { f with bits := f.bits.clear, tracker := f.tracker.reset }

/-- `PrecisionBloom::is_overfilled`. -/
def is_overfilled (f : PrecisionBloom) : Bool :=
  f.tracker.is_overfilled

/-- `PrecisionBloom::len`. -/
def len (f : PrecisionBloom) : Nat :=
  f.tracker.items_inserted

/-- A sequence of further `insert` calls. -/
def insertSeq (f : PrecisionBloom) : List Item → Option PrecisionBloom
  | [] => some f
  | x :: xs => do
    let p ← f.insert x
    insertSeq p.1 xs

/-- One public mutating-or-querying call on the filter, for claims about
which calls touch the tracker. -/
inductive Call where
  | insert (item : Item)
  | contains (item : Item)
  | may_contain (item : Item)
  | clear
deriving DecidableEq

/-- The state transition of one public call: `insert` and `clear` mutate
the receiver, `contains`/`may_contain` take `&self` and leave it unchanged
(their only effect is the returned `Bool`). -/
def step (f : PrecisionBloom) : Call → Option PrecisionBloom
  | .insert x => (f.insert x).map Prod.fst
  | .contains x => (f.contains x).map (fun _ => f)
  | .may_contain x => (f.may_contain x).map (fun _ => f)
  | .clear => some f.clear

/-- Well-formedness of a filter aggregate, as established by
`PrecisionBloom::new`: the sub-components agree on the parameters, the
parameters are positive, and the word vector covers the capacity. -/
def WF (f : PrecisionBloom) : Prop :=
  f.bits.capacity = f.params.num_bits ∧
  f.hash_strategy.num_bits = f.params.num_bits ∧
  f.hash_strategy.num_hashes = f.params.num_hashes ∧
  0 < f.params.num_bits ∧
  0 < f.params.num_hashes ∧
  f.bits.SizeOk

instance (f : PrecisionBloom) : Decidable f.WF := by
  unfold WF
  infer_instance

end PrecisionBloom

/-! ### Lemmas about the bit storage -/

namespace BitArray

theorem and_shift_ne_zero (w k : Nat) :
    ((w &&& (1 <<< k)) != 0) = w.testBit k := by
  rw [Nat.one_shiftLeft, Nat.and_two_pow]
  cases h : w.testBit k <;> simp [h, Nat.pow_eq_zero]

theorem get_eq_bitAt (b : BitArray) {i : Nat} (h : i < b.capacity) :
    b.get i = some (b.bitAt i) := by
  simp [get, h, bitAt, and_shift_ne_zero]

theorem get_eq_none_iff (b : BitArray) (i : Nat) :
    b.get i = none ↔ b.capacity ≤ i := by
  unfold get
  split <;> simp_all

theorem set_eq_none_iff (b : BitArray) (i : Nat) :
    b.set i = none ↔ b.capacity ≤ i := by
  unfold set
  split <;> simp_all

theorem set_eq_some (b : BitArray) {i : Nat} (h : i < b.capacity) :
    b.set i = some { b with
      words := b.words.set (i / 64)
        (b.words.getD (i / 64) 0 ||| (1 <<< (i % 64))) } := by
  simp [set, h]

theorem getD_set_self {l : List Nat} {k : Nat} (a : Nat) (h : k < l.length) :
    (l.set k a).getD k 0 = a := by
  simp [List.getD_eq_getElem?_getD, List.getElem?_set_self h]

theorem getD_set_ne {l : List Nat} {k j : Nat} (a : Nat) (h : k ≠ j) :
    (l.set k a).getD j 0 = l.getD j 0 := by
  simp [List.getD_eq_getElem?_getD, List.getElem?_set_ne h]

theorem word_index_lt (b : BitArray) {i : Nat} (hs : b.SizeOk)
    (h : i < b.capacity) : i / 64 < b.words.length := by
  have h1 : (i + 64) / 64 ≤ (b.capacity + 63) / 64 :=
    Nat.div_le_div_right (by omega)
  have h2 : (i + 64) / 64 = i / 64 + 1 := Nat.add_div_right i (by norm_num)
  unfold SizeOk at hs
  omega

/-- Setting a bit only turns bits on. -/
theorem bitAt_set_mono {b b' : BitArray} {i : Nat} (hset : b.set i = some b')
    (j : Nat) (hj : b.bitAt j = true) : b'.bitAt j = true := by
  unfold set at hset
  split at hset
  case isFalse => exact absurd hset (by simp)
  case isTrue h =>
    obtain rfl : _ = b' := Option.some_injective _ hset
    unfold bitAt at hj ⊢
    by_cases hw : i / 64 = j / 64
    · rw [← hw] at hj ⊢
      by_cases hlen : i / 64 < b.words.length
      · rw [getD_set_self _ hlen]
        simp only [Nat.testBit_or, Bool.or_eq_true]
        exact Or.inl hj
      · rw [List.getD_eq_getElem?_getD, List.getElem?_eq_none (by simpa using hlen)]
        rw [List.getD_eq_getElem?_getD, List.getElem?_eq_none
          (by simpa using hlen)] at hj
        simp at hj
    · rwa [getD_set_ne _ hw]

/-- Setting an in-bounds bit really sets it (given enough words). -/
theorem bitAt_set_self {b b' : BitArray} {i : Nat} (hs : b.SizeOk)
    (hset : b.set i = some b') : b'.bitAt i = true := by
  have hcap : i < b.capacity := by
    by_contra hc
    rw [(b.set_eq_none_iff i).mpr (by omega)] at hset
    exact Option.noConfusion hset
  rw [set_eq_some b hcap] at hset
  obtain rfl : _ = b' := Option.some_injective _ hset
  unfold bitAt
  rw [getD_set_self _ (b.word_index_lt hs hcap)]
  simp [Nat.testBit_or, Nat.one_shiftLeft, Nat.testBit_two_pow_self]

theorem set_capacity {b b' : BitArray} {i : Nat} (hset : b.set i = some b') :
    b'.capacity = b.capacity := by
  unfold set at hset
  split at hset
  · obtain rfl : _ = b' := Option.some_injective _ hset
    rfl
  · exact absurd hset (by simp)

theorem set_words_length {b b' : BitArray} {i : Nat}
    (hset : b.set i = some b') : b'.words.length = b.words.length := by
  unfold set at hset
  split at hset
  · obtain rfl : _ = b' := Option.some_injective _ hset
    simp
  · exact absurd hset (by simp)

theorem set_sizeOk {b b' : BitArray} {i : Nat} (hs : b.SizeOk)
    (hset : b.set i = some b') : b'.SizeOk := by
  unfold SizeOk at hs ⊢
  rw [set_words_length hset, set_capacity hset]
  exact hs

/-- A freshly allocated array has every bit clear. -/
theorem bitAt_new {cap : Nat} {b : BitArray} (h : new cap = some b) (j : Nat) :
    b.bitAt j = false := by
  unfold new at h
  split at h
  · obtain rfl : _ = b := Option.some_injective _ h
    unfold bitAt
    rcases Nat.lt_or_ge (j / 64) ((cap + 63) / 64) with hlt | hge
    · simp [List.getD_eq_getElem?_getD, List.getElem?_replicate, hlt]
    · simp [List.getD_eq_getElem?_getD, List.getElem?_replicate,
        Nat.not_lt.mpr hge]
  · exact absurd h (by simp)

theorem new_capacity {cap : Nat} {b : BitArray} (h : new cap = some b) :
    b.capacity = cap := by
  unfold new at h
  split at h
  · obtain rfl : _ = b := Option.some_injective _ h
    rfl
  · exact absurd h (by simp)

theorem new_sizeOk {cap : Nat} {b : BitArray} (h : new cap = some b) :
    b.SizeOk := by
  unfold new at h
  split at h
  · obtain rfl : _ = b := Option.some_injective _ h
    simp [SizeOk]
  · exact absurd h (by simp)

theorem clear_bitAt (b : BitArray) (j : Nat) : b.clear.bitAt j = false := by
  unfold clear bitAt
  rcases Nat.lt_or_ge (j / 64) b.words.length with hlt | hge
  · simp [List.getD_eq_getElem?_getD, List.getElem?_replicate, hlt]
  · simp [List.getD_eq_getElem?_getD, List.getElem?_replicate,
      Nat.not_lt.mpr hge]

end BitArray

/-! ### Lemmas about index generation -/

namespace HashStrategy

theorem length_hash_indices (s : HashStrategy) (h1 h2 : Nat) :
    (s.hash_indices h1 h2).length = s.num_hashes := by
  simp [hash_indices]

theorem compute_index_eq (s : HashStrategy) (h1 h2 i : Nat) :
    s.compute_index h1 h2 i = ((h1 + i * h2) % 2 ^ 64) % s.num_bits := by
  unfold compute_index
  congr 1
  omega

theorem hash_indices_getD (s : HashStrategy) (h1 h2 : Nat) {i : Nat}
    (hi : i < s.num_hashes) :
    (s.hash_indices h1 h2).getD i 0 = ((h1 + i * h2) % 2 ^ 64) % s.num_bits := by
  rw [← compute_index_eq]
  simp [hash_indices, List.getD_eq_getElem?_getD, List.getElem?_range hi]

theorem hash_indices_lt (s : HashStrategy) (h1 h2 : Nat)
    (hm : 0 < s.num_bits) :
    ∀ x ∈ s.hash_indices h1 h2, x < s.num_bits := by
  intro x hx
  simp only [hash_indices, List.mem_map] at hx
  obtain ⟨i, _, rfl⟩ := hx
  exact Nat.mod_lt _ hm

theorem hash_indices_ne_nil (s : HashStrategy) (h1 h2 : Nat)
    (hk : 0 < s.num_hashes) : s.hash_indices h1 h2 ≠ [] := by
  intro h
  have := length_hash_indices s h1 h2
  rw [h] at this
  simp at this
  omega

end HashStrategy

/-! ### Lemmas about the insert and contains loops -/

namespace PrecisionBloom

theorem insertBits_isSome (bits : BitArray) (idxs : List Nat) (wa : Bool)
    (h : ∀ x ∈ idxs, x < bits.capacity) : (insertBits bits idxs wa).isSome := by
  induction idxs generalizing bits wa with
  | nil => simp [insertBits]
  | cons i rest ih =>
    have hi : i < bits.capacity := h i (by simp)
    have hrest : ∀ x ∈ rest, x < bits.capacity := fun x hx => h x (by simp [hx])
    rw [insertBits, bits.get_eq_bitAt hi]
    cases hb : bits.bitAt i with
    | true => simpa using ih bits wa hrest
    | false =>
      rw [bits.set_eq_some hi]
      simp only [Option.bind_eq_bind, Option.some_bind, Bool.not_false,
        if_pos rfl]
      refine ih _ true (fun x hx => ?_)
      simpa using hrest x hx

theorem insertBits_frame {bits b' : BitArray} {idxs : List Nat}
    {wa wa' : Bool} (h : insertBits bits idxs wa = some (b', wa')) :
    b'.capacity = bits.capacity ∧ b'.words.length = bits.words.length := by
  induction idxs generalizing bits wa with
  | nil =>
    rw [insertBits] at h
    obtain ⟨rfl, rfl⟩ : bits = b' ∧ wa = wa' := by
      simpa using h
    exact ⟨rfl, rfl⟩
  | cons i rest ih =>
    rw [insertBits] at h
    cases hg : bits.get i with
    | none => rw [hg] at h; exact absurd h (by simp)
    | some g =>
      rw [hg] at h
      simp only [Option.bind_eq_bind, Option.some_bind] at h
      cases g with
      | true =>
        rw [if_neg (by simp)] at h
        exact ih h
      | false =>
        simp only [Bool.not_false, if_pos rfl] at h
        cases hset : bits.set i with
        | none => rw [hset] at h; exact absurd h (by simp)
        | some b2 =>
          rw [hset] at h
          simp only [Option.some_bind] at h
          obtain ⟨h1, h2⟩ := ih h
          exact ⟨h1.trans (BitArray.set_capacity hset),
            h2.trans (BitArray.set_words_length hset)⟩

theorem insertBits_mono {bits b' : BitArray} {idxs : List Nat}
    {wa wa' : Bool} (h : insertBits bits idxs wa = some (b', wa'))
    (j : Nat) (hj : bits.bitAt j = true) : b'.bitAt j = true := by
  induction idxs generalizing bits wa with
  | nil =>
    rw [insertBits] at h
    obtain ⟨rfl, rfl⟩ : bits = b' ∧ wa = wa' := by
      simpa using h
    exact hj
  | cons i rest ih =>
    rw [insertBits] at h
    cases hg : bits.get i with
    | none => rw [hg] at h; exact absurd h (by simp)
    | some g =>
      rw [hg] at h
      simp only [Option.bind_eq_bind, Option.some_bind] at h
      cases g with
      | true =>
        rw [if_neg (by simp)] at h
        exact ih h hj
      | false =>
        simp only [Bool.not_false, if_pos rfl] at h
        cases hset : bits.set i with
        | none => rw [hset] at h; exact absurd h (by simp)
        | some b2 =>
          rw [hset] at h
          simp only [Option.some_bind] at h
          exact ih h (BitArray.bitAt_set_mono hset j hj)

theorem get_some_lt {b : BitArray} {i : Nat} {g : Bool}
    (h : b.get i = some g) : i < b.capacity := by
  by_contra hc
  rw [(b.get_eq_none_iff i).mpr (by omega)] at h
  exact Option.noConfusion h

theorem get_some_eq {b : BitArray} {i : Nat} {g : Bool}
    (h : b.get i = some g) : g = b.bitAt i := by
  have hlt := get_some_lt h
  rw [b.get_eq_bitAt hlt] at h
  exact (Option.some_injective _ h).symm

theorem insertBits_sets {bits b' : BitArray} {idxs : List Nat}
    {wa wa' : Bool} (hs : bits.SizeOk)
    (h : insertBits bits idxs wa = some (b', wa')) :
    ∀ x ∈ idxs, b'.bitAt x = true := by
  induction idxs generalizing bits wa with
  | nil => simp
  | cons i rest ih =>
    rw [insertBits] at h
    cases hg : bits.get i with
    | none => rw [hg] at h; exact absurd h (by simp)
    | some g =>
      rw [hg] at h
      simp only [Option.bind_eq_bind, Option.some_bind] at h
      intro x hx
      rcases List.mem_cons.mp hx with rfl | hxr
      · cases g with
        | true =>
          rw [if_neg (by simp)] at h
          exact insertBits_mono h x (get_some_eq hg).symm
        | false =>
          simp only [Bool.not_false, if_pos rfl] at h
          cases hset : bits.set x with
          | none => rw [hset] at h; exact absurd h (by simp)
          | some b2 =>
            rw [hset] at h
            simp only [Option.some_bind] at h
            exact insertBits_mono h x (BitArray.bitAt_set_self hs hset)
      · cases g with
        | true =>
          rw [if_neg (by simp)] at h
          exact ih hs h x hxr
        | false =>
          simp only [Bool.not_false, if_pos rfl] at h
          cases hset : bits.set i with
          | none => rw [hset] at h; exact absurd h (by simp)
          | some b2 =>
            rw [hset] at h
            simp only [Option.some_bind] at h
            exact ih (BitArray.set_sizeOk hs hset) h x hxr

theorem insertBits_flag_true {bits b' : BitArray} {idxs : List Nat}
    {wa' : Bool} (h : insertBits bits idxs true = some (b', wa')) :
    wa' = true := by
  induction idxs generalizing bits with
  | nil =>
    rw [insertBits] at h
    obtain ⟨-, rfl⟩ : bits = b' ∧ true = wa' := by simpa using h
    rfl
  | cons i rest ih =>
    rw [insertBits] at h
    cases hg : bits.get i with
    | none => rw [hg] at h; exact absurd h (by simp)
    | some g =>
      rw [hg] at h
      simp only [Option.bind_eq_bind, Option.some_bind] at h
      cases g with
      | true =>
        rw [if_neg (by simp)] at h
        exact ih h
      | false =>
        simp only [Bool.not_false, if_pos rfl] at h
        cases hset : bits.set i with
        | none => rw [hset] at h; exact absurd h (by simp)
        | some b2 =>
          rw [hset] at h
          simp only [Option.some_bind] at h
          exact ih h

theorem insertBits_flag_iff {bits b' : BitArray} {idxs : List Nat}
    {wa' : Bool} (h : insertBits bits idxs false = some (b', wa')) :
    wa' = true ↔ ∃ x ∈ idxs, bits.bitAt x = false := by
  induction idxs generalizing bits with
  | nil =>
    rw [insertBits] at h
    obtain ⟨-, rfl⟩ : bits = b' ∧ false = wa' := by simpa using h
    simp
  | cons i rest ih =>
    rw [insertBits] at h
    cases hg : bits.get i with
    | none => rw [hg] at h; exact absurd h (by simp)
    | some g =>
      rw [hg] at h
      simp only [Option.bind_eq_bind, Option.some_bind] at h
      cases g with
      | true =>
        rw [if_neg (by simp)] at h
        rw [ih h]
        constructor
        · rintro ⟨x, hx, hb⟩
          exact ⟨x, by simp [hx], hb⟩
        · rintro ⟨x, hx, hb⟩
          rcases List.mem_cons.mp hx with rfl | hxr
          · rw [← get_some_eq hg] at hb
            exact absurd hb (by simp)
          · exact ⟨x, hxr, hb⟩
      | false =>
        simp only [Bool.not_false, if_pos rfl] at h
        cases hset : bits.set i with
        | none => rw [hset] at h; exact absurd h (by simp)
        | some b2 =>
          rw [hset] at h
          simp only [Option.some_bind] at h
          have := insertBits_flag_true h
          subst this
          simp only [true_iff]
          exact ⟨i, by simp, (get_some_eq hg).symm⟩

theorem containsAll_isSome (bits : BitArray) (idxs : List Nat)
    (h : ∀ x ∈ idxs, x < bits.capacity) : (containsAll bits idxs).isSome := by
  induction idxs with
  | nil => simp [containsAll]
  | cons i rest ih =>
    rw [containsAll, bits.get_eq_bitAt (h i (by simp))]
    cases hb : bits.bitAt i with
    | true => simpa using ih (fun x hx => h x (by simp [hx]))
    | false => simp

theorem containsAll_of_all_set (bits : BitArray) (idxs : List Nat)
    (h : ∀ x ∈ idxs, x < bits.capacity ∧ bits.bitAt x = true) :
    containsAll bits idxs = some true := by
  induction idxs with
  | nil => rfl
  | cons i rest ih =>
    obtain ⟨hlt, hbit⟩ := h i (by simp)
    rw [containsAll, bits.get_eq_bitAt hlt, hbit]
    simpa using ih (fun x hx => h x (by simp [hx]))

/-- The index list of an item, all in capacity bounds under `WF`. -/
theorem indices_lt_capacity {f : PrecisionBloom} (hwf : f.WF) (x : Item) :
    ∀ i ∈ f.hash_strategy.hash_indices x.1 x.2, i < f.bits.capacity := by
  obtain ⟨hcap, hsb, -, hmpos, -, -⟩ := hwf
  intro i hi
  have := f.hash_strategy.hash_indices_lt x.1 x.2 (by omega) i hi
  omega

theorem insert_isSome (f : PrecisionBloom) (x : Item) (hwf : f.WF) :
    (f.insert x).isSome := by
  simp only [insert]
  have h := insertBits_isSome f.bits (f.hash_strategy.hash_indices x.1 x.2)
    false (indices_lt_capacity hwf x)
  cases hi : insertBits f.bits (f.hash_strategy.hash_indices x.1 x.2) false with
  | none => rw [hi] at h; exact absurd h (by simp)
  | some p => simp

/-- Everything `insert` does, in one bundle: the tracker records one
insertion, the strategy and parameters are untouched, bits only grow, the
item's own positions all end up set, and the returned flag is exactly
"some position was unset before the call". -/
theorem insert_spec {f f₁ : PrecisionBloom} {x : Item} {r : Bool}
    (hwf : f.WF) (h : f.insert x = some (f₁, r)) :
    f₁.WF ∧
    f₁.hash_strategy = f.hash_strategy ∧
    f₁.params = f.params ∧
    f₁.tracker = f.tracker.record_insert ∧
    f₁.bits.capacity = f.bits.capacity ∧
    (∀ j, f.bits.bitAt j = true → f₁.bits.bitAt j = true) ∧
    (∀ i ∈ f.hash_strategy.hash_indices x.1 x.2, f₁.bits.bitAt i = true) ∧
    (r = true ↔ ∃ i ∈ f.hash_strategy.hash_indices x.1 x.2,
      f.bits.bitAt i = false) := by
  obtain ⟨hcap, hsb, hsh, hmpos, hkpos, hsz⟩ := hwf
  simp only [insert] at h
  cases hi : insertBits f.bits (f.hash_strategy.hash_indices x.1 x.2) false with
  | none => rw [hi] at h; exact absurd h (by simp)
  | some p =>
    obtain ⟨bits', wa'⟩ := p
    rw [hi] at h
    simp only [Option.bind_eq_bind, Option.some_bind, Option.some.injEq] at h
    obtain ⟨rfl, rfl⟩ : _ = f₁ ∧ wa' = r := ⟨congrArg Prod.fst h, congrArg Prod.snd h⟩
    obtain ⟨hfc, hfl⟩ := insertBits_frame hi
    refine ⟨⟨by simpa using hfc.trans hcap, hsb, hsh, hmpos, hkpos, ?_⟩,
      rfl, rfl, rfl, by simpa using hfc, ?_, ?_, ?_⟩
    · show (bits'.capacity + 63) / 64 ≤ bits'.words.length
      rw [hfc, hfl]
      exact hsz
    · exact fun j hj => insertBits_mono hi j hj
    · exact insertBits_sets hsz hi
    · exact insertBits_flag_iff hi

/-- `insertSeq` preserves well-formedness, the strategy and set bits. -/
theorem insertSeq_spec {f f₂ : PrecisionBloom} {xs : List Item}
    (hwf : f.WF) (h : insertSeq f xs = some f₂) :
    f₂.WF ∧
    f₂.hash_strategy = f.hash_strategy ∧
    f₂.bits.capacity = f.bits.capacity ∧
    (∀ j, f.bits.bitAt j = true → f₂.bits.bitAt j = true) := by
  induction xs generalizing f with
  | nil =>
    rw [insertSeq] at h
    obtain rfl : f = f₂ := by simpa using h
    exact ⟨hwf, rfl, rfl, fun _ h => h⟩
  | cons x xs ih =>
    rw [insertSeq] at h
    cases hi : f.insert x with
    | none => rw [hi] at h; exact absurd h (by simp)
    | some p =>
      obtain ⟨f₁, r⟩ := p
      rw [hi] at h
      simp only [Option.bind_eq_bind, Option.some_bind] at h
      obtain ⟨hwf₁, hsh₁, -, -, hc₁, hmono₁, -, -⟩ := insert_spec hwf hi
      obtain ⟨hwf₂, hsh₂, hc₂, hmono₂⟩ := ih hwf₁ h
      exact ⟨hwf₂, hsh₂.trans hsh₁, hc₂.trans hc₁,
        fun j hj => hmono₂ j (hmono₁ j hj)⟩

theorem contains_isSome (f : PrecisionBloom) (x : Item) (hwf : f.WF) :
    (f.contains x).isSome := by
  unfold contains
  exact containsAll_isSome _ _ (indices_lt_capacity hwf x)

theorem contains_of_all_set {f : PrecisionBloom} {x : Item} (hwf : f.WF)
    (h : ∀ i ∈ f.hash_strategy.hash_indices x.1 x.2, f.bits.bitAt i = true) :
    f.contains x = some true := by
  unfold contains
  exact containsAll_of_all_set _ _
    (fun i hi => ⟨indices_lt_capacity hwf x i hi, h i hi⟩)

end PrecisionBloom

/-! ### Numeric bounds for the parameter solver

`ln 2` bounds come from Mathlib; `ln 100 = 7 ln 2 - ln(32/25)` with
`6/25 ≤ ln(32/25) ≤ 7/25` gives tight enough bounds on `ln 100`. -/

theorem log_ratio_le : Real.log (32 / 25) ≤ 7 / 25 := by
  have h := Real.log_le_sub_one_of_pos (x := 32 / 25) (by norm_num)
  linarith

theorem le_log_ratio : (6 : ℝ) / 25 ≤ Real.log (32 / 25) := by
  rw [Real.le_log_iff_exp_le (by norm_num)]
  have h := Real.exp_bound' (x := 6 / 25) (by norm_num) (by norm_num) (n := 3)
    (by norm_num)
  refine h.trans ?_
  rw [Finset.sum_range_succ, Finset.sum_range_succ, Finset.sum_range_one]
  norm_num [Nat.factorial]

theorem log_hundred_eq : Real.log 100 = 7 * Real.log 2 - Real.log (32 / 25) := by
  have h : (100 : ℝ) = 2 ^ 7 / (32 / 25) := by norm_num
  rw [h, Real.log_div (by norm_num) (by norm_num), Real.log_pow]
  push_cast
  ring

theorem lt_log_hundred : (4.5720302 : ℝ) < Real.log 100 := by
  rw [log_hundred_eq]
  have h1 := Real.log_two_gt_d9
  have h2 := log_ratio_le
  linarith

theorem log_hundred_lt : Real.log 100 < 4.6120303 := by
  rw [log_hundred_eq]
  have h1 := Real.log_two_lt_d9
  have h2 := le_log_ratio
  linarith

theorem lt_log_two_sq : (0.4804530135 : ℝ) < Real.log 2 * Real.log 2 := by
  nlinarith [Real.log_two_gt_d9, Real.log_two_lt_d9]

theorem log_two_sq_lt : Real.log 2 * Real.log 2 < 0.4804530206 := by
  nlinarith [Real.log_two_gt_d9, Real.log_two_lt_d9, Real.log_two_gt_d9]

/-- The solver at `(10, 0.01)` yields exactly `m = 96`, `k = 7`
(true value of `m` before ceiling: `≈ 95.85`). -/
theorem from_item_count_10 :
    BloomParameters.from_item_count 10 (mkRat 1 100) =
      some { num_bits := 96, num_hashes := 7, expected_items := 10,
             false_positive_rate := mkRat 1 100 } := by
  have hS : (0:ℝ) < Real.log 2 * Real.log 2 := lt_trans (by norm_num) lt_log_two_sq
  have hL1 := lt_log_hundred
  have hL2 := log_hundred_lt
  have hS1 := lt_log_two_sq
  have hS2 := log_two_sq_lt
  have hlt2 := Real.log_two_lt_d9
  have hgt2 := Real.log_two_gt_d9
  have hrat : (mkRat 1 100 : ℚ) = 1 / 100 := by
    rw [Rat.mkRat_eq_div]
    norm_num
  have hcast : ((mkRat 1 100 : ℚ) : ℝ) = 1 / 100 := by
    rw [hrat]
    push_cast
    ring
  rw [BloomParameters.from_item_count, if_pos (by rw [hrat]; norm_num)]
  have hlog : Real.log ((1 : ℝ) / 100) = -Real.log 100 := by
    rw [one_div, Real.log_inv]
  have hx : -((10:Nat) : ℝ) * Real.log ((mkRat 1 100 : ℚ) : ℝ) /
        (Real.log 2 * Real.log 2)
      = 10 * Real.log 100 / (Real.log 2 * Real.log 2) := by
    rw [hcast, hlog]
    push_cast
    ring
  have hm : (⌈-((10:Nat) : ℝ) * Real.log ((mkRat 1 100 : ℚ) : ℝ) /
      (Real.log 2 * Real.log 2)⌉).toNat = 96 := by
    rw [hx]
    have hceil : (⌈(10 : ℝ) * Real.log 100 / (Real.log 2 * Real.log 2)⌉ : ℤ)
        = 96 := by
      rw [Int.ceil_eq_iff]
      constructor
      · push_cast
        rw [lt_div_iff₀ hS]
        nlinarith
      · rw [div_le_iff₀ hS]
        push_cast
        nlinarith
    rw [hceil]
    rfl
  simp only [hm, Option.some.injEq]
  have hk : (⌈((96:Nat) : ℝ) / ((10:Nat) : ℝ) * Real.log 2⌉ : ℤ) = 7 := by
    rw [Int.ceil_eq_iff]
    push_cast
    constructor <;> nlinarith
  congr 1
  rw [hk]
  rfl

/-! ### The structural invariant and saturation bounds -/

namespace BitArray

theorem popCount_le_min {w cap : Nat}
    (h : ∀ i, i < 64 → w.testBit i = true → i < cap) :
    popCount w ≤ min 64 cap := by
  unfold popCount
  have hsub : (Finset.range 64).filter (fun i => w.testBit i) ⊆
      Finset.range (min 64 cap) := by
    intro i hi
    simp only [Finset.mem_filter, Finset.mem_range] at hi
    simp only [Finset.mem_range]
    exact lt_min hi.1 (h i hi.1 hi.2)
  calc ((Finset.range 64).filter (fun i => w.testBit i)).card
      ≤ (Finset.range (min 64 cap)).card := Finset.card_le_card hsub
    _ = min 64 cap := Finset.card_range _

theorem sum_popCount_le {cap : Nat} (ws : List Nat)
    (h : ∀ j i, i < 64 → (ws.getD j 0).testBit i = true → 64 * j + i < cap) :
    (ws.map popCount).sum ≤ cap := by
  induction ws generalizing cap with
  | nil => simp
  | cons w ws ih =>
    have hw : popCount w ≤ min 64 cap := by
      refine popCount_le_min (fun i hi hb => ?_)
      have := h 0 i hi (by simpa using hb)
      omega
    have hrest : (ws.map popCount).sum ≤ cap - 64 := by
      refine ih (fun j i hi hb => ?_)
      have := h (j + 1) i hi (by simpa using hb)
      omega
    simp only [List.map_cons, List.sum_cons]
    omega

theorem count_ones_le_capacity {b : BitArray} (hInv : b.Inv) :
    b.count_ones ≤ b.capacity := by
  unfold count_ones
  refine sum_popCount_le b.words (fun j i hi hb => ?_)
  rcases Nat.lt_or_ge j b.words.length with hj | hj
  · exact hInv.2 j hj i hi hb
  · rw [List.getD_eq_getElem?_getD, List.getElem?_eq_none (by simpa using hj)]
      at hb
    simp at hb

theorem inv_new {cap : Nat} {b : BitArray} (h : new cap = some b) : b.Inv := by
  unfold new at h
  split at h
  · obtain rfl : _ = b := Option.some_injective _ h
    refine ⟨by simp, fun j hj i hi hb => ?_⟩
    rcases Nat.lt_or_ge j ((cap + 63) / 64) with hlt | hge
    · simp [List.getD_eq_getElem?_getD, List.getElem?_replicate, hlt] at hb
    · simp [List.getD_eq_getElem?_getD, List.getElem?_replicate,
        Nat.not_lt.mpr hge] at hb
  · exact absurd h (by simp)

theorem inv_set {b b' : BitArray} {idx : Nat} (hInv : b.Inv)
    (h : b.set idx = some b') : b'.Inv := by
  have hcap : idx < b.capacity := by
    by_contra hc
    rw [(b.set_eq_none_iff idx).mpr (by omega)] at h
    exact Option.noConfusion h
  rw [set_eq_some b hcap] at h
  obtain rfl : _ = b' := Option.some_injective _ h
  obtain ⟨hlen, hbits⟩ := hInv
  refine ⟨by simpa using hlen, fun j hj i hi hb => ?_⟩
  simp only [List.length_set] at hj
  by_cases hw : idx / 64 = j
  · subst hw
    rw [getD_set_self _ hj] at hb
    simp only [Nat.testBit_or] at hb
    rcases Bool.or_eq_true_iff.mp hb with hold | hnew
    · exact hbits _ hj i hi hold
    · rw [Nat.one_shiftLeft, Nat.testBit_two_pow] at hnew
      have hieq : idx % 64 = i := of_decide_eq_true hnew
      have hdecomp : 64 * (idx / 64) + idx % 64 = idx := Nat.div_add_mod idx 64
      show 64 * (idx / 64) + i < b.capacity
      omega
  · rw [getD_set_ne _ hw] at hb
    exact hbits j hj i hi hb

theorem inv_clear {b : BitArray} (hInv : b.Inv) : b.clear.Inv := by
  obtain ⟨hlen, -⟩ := hInv
  refine ⟨by simpa [clear] using hlen, fun j hj i hi hb => ?_⟩
  simp only [clear, List.length_replicate] at hj
  rcases Nat.lt_or_ge j b.words.length with hlt | hge
  · simp [clear, List.getD_eq_getElem?_getD, List.getElem?_replicate, hlt] at hb
  · omega

theorem clear_capacity (b : BitArray) : b.clear.capacity = b.capacity := rfl

theorem applyOps_inv {b b' : BitArray} {ops : List Op} (hInv : b.Inv)
    (h : b.applyOps ops = some b') : b'.Inv ∧ b'.capacity = b.capacity := by
  induction ops generalizing b with
  | nil =>
    rw [applyOps] at h
    obtain rfl : b = b' := by simpa using h
    exact ⟨hInv, rfl⟩
  | cons op ops ih =>
    rw [applyOps] at h
    cases op with
    | setBit i =>
      simp only [applyOp, Option.bind_eq_bind] at h
      cases hset : b.set i with
      | none => rw [hset] at h; exact absurd h (by simp)
      | some b2 =>
        rw [hset] at h
        simp only [Option.some_bind] at h
        obtain ⟨hi, hc⟩ := ih (inv_set hInv hset) h
        exact ⟨hi, hc.trans (set_capacity hset)⟩
    | clearAll =>
      simp only [applyOp, Option.bind_eq_bind, Option.some_bind] at h
      obtain ⟨hi, hc⟩ := ih (inv_clear hInv) h
      exact ⟨hi, hc.trans (clear_capacity b)⟩

end BitArray

/-! ### Construction and tracker lemmas for the filter -/

namespace PrecisionBloom

theorem new_spec {P : BloomParameters} {f : PrecisionBloom}
    (h : PrecisionBloom.new P = some f) :
    f.WF ∧ f.params = P ∧ f.tracker = AccuracyTracker.new P ∧
    f.bits.capacity = P.num_bits ∧ (∀ j, f.bits.bitAt j = false) := by
  unfold new at h
  split at h
  case isFalse => exact absurd h (by simp)
  case isTrue hv =>
    simp only [BloomParameters.validate, Bool.and_eq_true, decide_eq_true_eq]
      at hv
    obtain ⟨⟨⟨hm, hk⟩, -⟩, -⟩ := hv
    cases hb : BitArray.new P.num_bits with
    | none =>
      rw [BitArray.new, if_pos hm] at hb
      exact Option.noConfusion hb
    | some bits =>
      rw [hb] at h
      cases hst : HashStrategy.new P.num_hashes P.num_bits with
      | none =>
        rw [HashStrategy.new, if_pos ⟨hk, hm⟩] at hst
        exact Option.noConfusion hst
      | some st =>
        rw [hst] at h
        simp only [Option.bind_eq_bind, Option.some_bind, Option.some.injEq]
          at h
        obtain rfl : _ = f := h
        have hstv : st = { num_hashes := P.num_hashes, num_bits := P.num_bits } := by
          rw [HashStrategy.new, if_pos ⟨hk, hm⟩] at hst
          exact (Option.some_injective _ hst).symm
        subst hstv
        refine ⟨⟨BitArray.new_capacity hb, rfl, rfl, hm, hk,
          BitArray.new_sizeOk hb⟩, rfl, rfl, BitArray.new_capacity hb,
          BitArray.bitAt_new hb⟩

/-- Each step of `insertSeq` bumps `items_inserted` once and leaves the
parameters and query counter alone. -/
theorem insertSeq_tracker {f f₂ : PrecisionBloom} {xs : List Item}
    (hwf : f.WF) (h : insertSeq f xs = some f₂) :
    f₂.tracker.items_inserted = f.tracker.items_inserted + xs.length ∧
    f₂.tracker.params = f.tracker.params ∧
    f₂.tracker.queries_performed = f.tracker.queries_performed ∧
    f₂.params = f.params := by
  induction xs generalizing f with
  | nil =>
    rw [insertSeq] at h
    obtain rfl : f = f₂ := by simpa using h
    simp
  | cons x xs ih =>
    rw [insertSeq] at h
    cases hi : f.insert x with
    | none => rw [hi] at h; exact absurd h (by simp)
    | some p =>
      rw [hi] at h
      simp only [Option.bind_eq_bind, Option.some_bind] at h
      obtain ⟨hwf₁, -, hp₁, ht₁, -, -, -, -⟩ := insert_spec hwf hi
      obtain ⟨h1, h2, h3, h4⟩ := ih hwf₁ h
      refine ⟨?_, by rw [h2, ht₁]; rfl, by rw [h3, ht₁]; rfl, by rw [h4, hp₁]⟩
      rw [h1, ht₁]
      simp only [AccuracyTracker.record_insert, List.length_cons]
      omega

end PrecisionBloom

/-! ### Remaining helpers for the claims -/

theorem mkRat_hundredth_cast : ((mkRat 1 100 : ℚ) : ℝ) = 1 / 100 := by
  rw [Rat.mkRat_eq_div]
  push_cast
  norm_num

theorem exp_ratio_ge : (2.209 : ℝ) ≤ Real.exp (77 / 96) := by
  have h := Real.sum_le_exp_of_nonneg (x := (77 : ℝ) / 96) (by norm_num) 4
  refine le_trans ?_ h
  rw [Finset.sum_range_succ, Finset.sum_range_succ, Finset.sum_range_succ,
    Finset.sum_range_one]
  norm_num [Nat.factorial]

/-- The rate formula at `m = 96`, `k = 7`, `n = 11` exceeds the 1% target. -/
theorem calculate_fpr_96_7_11 :
    (1 / 100 : ℝ) < BloomParameters.calculate_fpr 96 7 11 := by
  unfold BloomParameters.calculate_fpr
  have harg : -((7:Nat) : ℝ) * ((11:Nat) : ℝ) / ((96:Nat) : ℝ) = -(77 / 96) := by
    push_cast
    norm_num
  rw [harg, Real.exp_neg]
  have hE := exp_ratio_ge
  have hinv : (Real.exp (77 / 96))⁻¹ ≤ (2.209 : ℝ)⁻¹ :=
    inv_anti₀ (by norm_num) hE
  have hq : (1 - (2.209 : ℝ)⁻¹) ≤ 1 - (Real.exp (77 / 96))⁻¹ := by linarith
  have hqn : (0 : ℝ) ≤ 1 - (2.209 : ℝ)⁻¹ := by norm_num
  have hpow : (1 - (2.209 : ℝ)⁻¹) ^ (7 : ℕ)
      ≤ (1 - (Real.exp (77 / 96))⁻¹) ^ (7 : ℕ) := pow_le_pow_left₀ hqn hq 7
  have hval : (1 / 100 : ℝ) < (1 - (2.209 : ℝ)⁻¹) ^ (7 : ℕ) := by norm_num
  calc (1 / 100 : ℝ) < (1 - (2.209 : ℝ)⁻¹) ^ (7 : ℕ) := hval
    _ ≤ _ := hpow

namespace PrecisionBloom

/-- The tracker update of `insert` does not depend on well-formedness. -/
theorem insert_tracker {f : PrecisionBloom} {p : PrecisionBloom × Bool}
    {x : Item} (h : f.insert x = some p) :
    p.1.tracker = f.tracker.record_insert := by
  simp only [insert] at h
  cases hi : insertBits f.bits (f.hash_strategy.hash_indices x.1 x.2) false with
  | none => rw [hi] at h; exact absurd h (by simp)
  | some q =>
    rw [hi] at h
    simp only [Option.bind_eq_bind, Option.some_bind, Option.some.injEq] at h
    rw [← h]

theorem step_contains_eq {f fq : PrecisionBloom} {x : Item}
    (h : f.step (.contains x) = some fq) : fq = f := by
  simp only [step] at h
  cases hc : f.contains x with
  | none => rw [hc] at h; exact absurd h (by simp)
  | some v =>
    rw [hc] at h
    simpa using h.symm

theorem step_may_contain_eq {f fm : PrecisionBloom} {y : Item}
    (h : f.step (.may_contain y) = some fm) : fm = f := by
  simp only [step] at h
  cases hc : f.may_contain y with
  | none => rw [hc] at h; exact absurd h (by simp)
  | some v =>
    rw [hc] at h
    simpa using h.symm

theorem step_insert_eq {f fi : PrecisionBloom} {z : Item}
    (h : f.step (.insert z) = some fi) :
    ∃ p : PrecisionBloom × Bool, f.insert z = some p ∧ fi = p.1 := by
  simp only [step] at h
  cases hc : f.insert z with
  | none => rw [hc] at h; exact absurd h (by simp)
  | some p =>
    rw [hc] at h
    exact ⟨p, rfl, by simpa using h.symm⟩

theorem step_clear_eq {f fc : PrecisionBloom}
    (h : f.step .clear = some fc) : fc = f.clear := by
  simp only [step] at h
  exact (Option.some_injective _ h).symm

end PrecisionBloom

/-! ### The claims -/

/-- C1: no false negatives — after `insert x` on a well-formed filter (no
`clear` since), `contains x` and `may_contain x` return `true`, and they
keep returning `true` after any further sequence of `insert` calls. -/
theorem claim1_no_false_negatives (f f₁ f₂ : PrecisionBloom) (x : Item)
    (r : Bool) (xs : List Item) (hwf : f.WF)
    (hins : f.insert x = some (f₁, r))
    (hseq : PrecisionBloom.insertSeq f₁ xs = some f₂) :
    f₂.contains x = some true ∧ f₂.may_contain x = some true := by
  obtain ⟨hwf₁, hsh₁, -, -, -, -, hset₁, -⟩ := PrecisionBloom.insert_spec hwf hins
  obtain ⟨hwf₂, hsh₂, -, hmono₂⟩ := PrecisionBloom.insertSeq_spec hwf₁ hseq
  have hall : ∀ i ∈ f₂.hash_strategy.hash_indices x.1 x.2,
      f₂.bits.bitAt i = true := by
    rw [hsh₂, hsh₁]
    intro i hi
    exact hmono₂ i (hset₁ i hi)
  have hcon := PrecisionBloom.contains_of_all_set hwf₂ hall
  exact ⟨hcon, by rw [PrecisionBloom.may_contain]; exact hcon⟩

theorem claim1_witness :
    (⟨⟨[0], 8⟩, ⟨2, 8⟩, ⟨8, 2, 4, mkRat 1 100⟩,
      ⟨⟨8, 2, 4, mkRat 1 100⟩, 0, 0⟩⟩ : PrecisionBloom).WF ∧
    ((⟨⟨[15], 8⟩, ⟨2, 8⟩, ⟨8, 2, 4, mkRat 1 100⟩,
      ⟨⟨8, 2, 4, mkRat 1 100⟩, 2, 0⟩⟩ : PrecisionBloom).contains (3, 5)
        = some true ∧
     (⟨⟨[15], 8⟩, ⟨2, 8⟩, ⟨8, 2, 4, mkRat 1 100⟩,
      ⟨⟨8, 2, 4, mkRat 1 100⟩, 2, 0⟩⟩ : PrecisionBloom).may_contain (3, 5)
        = some true) :=
  ⟨by decide,
   claim1_no_false_negatives
     ⟨⟨[0], 8⟩, ⟨2, 8⟩, ⟨8, 2, 4, mkRat 1 100⟩, ⟨⟨8, 2, 4, mkRat 1 100⟩, 0, 0⟩⟩
     ⟨⟨[9], 8⟩, ⟨2, 8⟩, ⟨8, 2, 4, mkRat 1 100⟩, ⟨⟨8, 2, 4, mkRat 1 100⟩, 1, 0⟩⟩
     ⟨⟨[15], 8⟩, ⟨2, 8⟩, ⟨8, 2, 4, mkRat 1 100⟩, ⟨⟨8, 2, 4, mkRat 1 100⟩, 2, 0⟩⟩
     (3, 5) true [(1, 1)] (by decide) (by decide) (by decide)⟩

/-- C2: `hash_indices` returns exactly `num_hashes` positions, the i-th one
is `(h1 + i*h2) mod num_bits` with wraparound (mod `2^64`) arithmetic, and
every returned position is strictly below `num_bits`. -/
theorem claim2_hash_indices (s : HashStrategy) (h1 h2 : Nat)
    (hm : 0 < s.num_bits) :
    (s.hash_indices h1 h2).length = s.num_hashes ∧
    (∀ i, i < s.num_hashes →
      (s.hash_indices h1 h2).getD i 0 = ((h1 + i * h2) % 2 ^ 64) % s.num_bits) ∧
    (∀ x ∈ s.hash_indices h1 h2, x < s.num_bits) :=
  ⟨s.length_hash_indices h1 h2,
   fun _ hi => s.hash_indices_getD h1 h2 hi,
   s.hash_indices_lt h1 h2 hm⟩

theorem claim2_witness :
    0 < (⟨2, 10⟩ : HashStrategy).num_bits ∧
    ((⟨2, 10⟩ : HashStrategy).hash_indices 5 7).length
      = (⟨2, 10⟩ : HashStrategy).num_hashes :=
  ⟨by decide, (claim2_hash_indices ⟨2, 10⟩ 5 7 (by decide)).1⟩

/-- C3: `BitArray::set` and `BitArray::get` fail (assert) exactly when
`index ≥ capacity`; on a filter built by `PrecisionBloom::new` (hence also
`with_capacity`) and mutated by any inserts, every hash index is below the
capacity, so `insert` and `contains` never reach the failure branch. -/
theorem claim3_bounds_unreachable (b : BitArray) (i : Nat)
    (P : BloomParameters) (f₀ f : PrecisionBloom) (xs : List Item) (x : Item)
    (hnew : PrecisionBloom.new P = some f₀)
    (hseq : PrecisionBloom.insertSeq f₀ xs = some f) :
    (b.get i = none ↔ b.capacity ≤ i) ∧
    (b.set i = none ↔ b.capacity ≤ i) ∧
    (∀ idx ∈ f.hash_strategy.hash_indices x.1 x.2, idx < f.bits.capacity) ∧
    (f.insert x).isSome ∧ (f.contains x).isSome := by
  obtain ⟨hwf₀, -, -, -, -⟩ := PrecisionBloom.new_spec hnew
  obtain ⟨hwf, -, -, -⟩ := PrecisionBloom.insertSeq_spec hwf₀ hseq
  exact ⟨b.get_eq_none_iff i, b.set_eq_none_iff i,
    PrecisionBloom.indices_lt_capacity hwf x,
    PrecisionBloom.insert_isSome f x hwf,
    PrecisionBloom.contains_isSome f x hwf⟩

theorem claim3_witness :
    ((⟨[0], 8⟩ : BitArray).get 9 = none ↔ (⟨[0], 8⟩ : BitArray).capacity ≤ 9) ∧
    ((⟨⟨[0], 8⟩, ⟨2, 8⟩, ⟨8, 2, 4, mkRat 1 100⟩,
      ⟨⟨8, 2, 4, mkRat 1 100⟩, 0, 0⟩⟩ : PrecisionBloom).insert (3, 5)).isSome :=
  have h := claim3_bounds_unreachable ⟨[0], 8⟩ 9 ⟨8, 2, 4, mkRat 1 100⟩
    ⟨⟨[0], 8⟩, ⟨2, 8⟩, ⟨8, 2, 4, mkRat 1 100⟩, ⟨⟨8, 2, 4, mkRat 1 100⟩, 0, 0⟩⟩
    ⟨⟨[0], 8⟩, ⟨2, 8⟩, ⟨8, 2, 4, mkRat 1 100⟩, ⟨⟨8, 2, 4, mkRat 1 100⟩, 0, 0⟩⟩
    [] (3, 5) (by decide) (by decide)
  ⟨h.1, h.2.2.2.1⟩

/-- C7: on a well-formed filter, `insert` records exactly one insertion in
the tracker no matter what, and returns `true` iff at least one of the
item's positions was unset in the bit array before the call. -/
theorem claim7_insert_effect (f f₁ : PrecisionBloom) (x : Item) (r : Bool)
    (hwf : f.WF) (h : f.insert x = some (f₁, r)) :
    f₁.tracker.items_inserted = f.tracker.items_inserted + 1 ∧
    (r = true ↔ ∃ i ∈ f.hash_strategy.hash_indices x.1 x.2,
      f.bits.bitAt i = false) := by
  obtain ⟨-, -, -, ht, -, -, -, hr⟩ := PrecisionBloom.insert_spec hwf h
  exact ⟨by rw [ht]; rfl, hr⟩

theorem claim7_witness :
    (⟨⟨[0], 8⟩, ⟨2, 8⟩, ⟨8, 2, 4, mkRat 1 100⟩,
      ⟨⟨8, 2, 4, mkRat 1 100⟩, 0, 0⟩⟩ : PrecisionBloom).WF ∧
    (⟨⟨[9], 8⟩, ⟨2, 8⟩, ⟨8, 2, 4, mkRat 1 100⟩,
      ⟨⟨8, 2, 4, mkRat 1 100⟩, 1, 0⟩⟩ : PrecisionBloom).tracker.items_inserted
      = (⟨⟨[0], 8⟩, ⟨2, 8⟩, ⟨8, 2, 4, mkRat 1 100⟩,
      ⟨⟨8, 2, 4, mkRat 1 100⟩, 0, 0⟩⟩ : PrecisionBloom).tracker.items_inserted
        + 1 :=
  ⟨by decide,
   (claim7_insert_effect
     ⟨⟨[0], 8⟩, ⟨2, 8⟩, ⟨8, 2, 4, mkRat 1 100⟩, ⟨⟨8, 2, 4, mkRat 1 100⟩, 0, 0⟩⟩
     ⟨⟨[9], 8⟩, ⟨2, 8⟩, ⟨8, 2, 4, mkRat 1 100⟩, ⟨⟨8, 2, 4, mkRat 1 100⟩, 1, 0⟩⟩
     (3, 5) true (by decide) (by decide)).1⟩

/-- C10: inserting any item into a well-formed filter whose bit array is
all zeros (fresh, or just cleared) returns `true`, because
`num_hashes ≥ 1` guarantees a previously-unset position. -/
theorem claim10_insert_fresh_true (f f₁ : PrecisionBloom) (x : Item)
    (r : Bool) (hwf : f.WF) (hz : ∀ w ∈ f.bits.words, w = 0)
    (h : f.insert x = some (f₁, r)) : r = true := by
  obtain ⟨-, -, -, -, -, -, -, hr⟩ := PrecisionBloom.insert_spec hwf h
  rw [hr]
  have hk : 0 < f.hash_strategy.num_hashes := by
    obtain ⟨-, -, hsh, -, hkpos, -⟩ := hwf
    omega
  have hne := f.hash_strategy.hash_indices_ne_nil x.1 x.2 hk
  obtain ⟨i₀, hi₀⟩ := List.exists_mem_of_ne_nil _ hne
  refine ⟨i₀, hi₀, ?_⟩
  unfold BitArray.bitAt
  have hzero : f.bits.words.getD (i₀ / 64) 0 = 0 := by
    rcases Nat.lt_or_ge (i₀ / 64) f.bits.words.length with hlt | hge
    · rw [List.getD_eq_getElem?_getD, List.getElem?_eq_getElem hlt]
      exact hz _ (List.getElem_mem hlt)
    · rw [List.getD_eq_getElem?_getD, List.getElem?_eq_none (by simpa using hge)]
      rfl
  rw [hzero]
  simp

theorem claim10_witness :
    (⟨⟨[0], 8⟩, ⟨2, 8⟩, ⟨8, 2, 4, mkRat 1 100⟩,
      ⟨⟨8, 2, 4, mkRat 1 100⟩, 0, 0⟩⟩ : PrecisionBloom).WF ∧ true = true :=
  ⟨by decide,
   claim10_insert_fresh_true
     ⟨⟨[0], 8⟩, ⟨2, 8⟩, ⟨8, 2, 4, mkRat 1 100⟩, ⟨⟨8, 2, 4, mkRat 1 100⟩, 0, 0⟩⟩
     ⟨⟨[9], 8⟩, ⟨2, 8⟩, ⟨8, 2, 4, mkRat 1 100⟩, ⟨⟨8, 2, 4, mkRat 1 100⟩, 1, 0⟩⟩
     (3, 5) true (by decide) (by decide) (by decide)⟩

/-- C4 counterexample: `from_words` accepts a words vector longer than
`ceil(capacity/64)`, so the claimed invariant fails for a `BitArray` built
through it: `[0, 0]` with capacity 64 has 2 words instead of 1. -/
theorem claim4_counterexample :
    BitArray.from_words [0, 0] 64 = some ⟨[0, 0], 64⟩ ∧
    ¬ (⟨[0, 0], 64⟩ : BitArray).Inv := by
  constructor
  · decide
  · intro h
    have := h.1
    simp at this

/-- C4 (amended): the structural invariant — exact word count, unused high
bits zero, and the unique (word, offset) decomposition of every bit index —
holds for every `BitArray` built by `new` and mutated by any sequence of
`set`/`clear` operations; `from_words` only checks the lower bound
`words.len() ≥ ceil(capacity/64)` and need not satisfy the invariant. -/
theorem claim4_invariant_amended (cap : Nat) (b₀ b : BitArray)
    (ops : List BitArray.Op) (hnew : BitArray.new cap = some b₀)
    (hops : b₀.applyOps ops = some b) :
    b.Inv ∧
    ∀ idx, idx < b.capacity →
      idx = 64 * (idx / 64) + idx % 64 ∧ idx % 64 < 64 ∧
      ∀ j o, o < 64 → idx = 64 * j + o → j = idx / 64 ∧ o = idx % 64 := by
  obtain ⟨hInv, -⟩ := BitArray.applyOps_inv (BitArray.inv_new hnew) hops
  refine ⟨hInv, fun idx _ => ⟨(Nat.div_add_mod idx 64).symm,
    Nat.mod_lt _ (by norm_num), fun j o ho he => ?_⟩⟩
  omega

theorem claim4_witness :
    BitArray.new 8 = some ⟨[0], 8⟩ ∧
    BitArray.applyOps ⟨[0], 8⟩
      [BitArray.Op.setBit 3, BitArray.Op.clearAll, BitArray.Op.setBit 0]
      = some ⟨[1], 8⟩ ∧
    (⟨[1], 8⟩ : BitArray).Inv :=
  ⟨by decide, by decide,
   (claim4_invariant_amended 8 ⟨[0], 8⟩ ⟨[1], 8⟩
     [BitArray.Op.setBit 3, BitArray.Op.clearAll, BitArray.Op.setBit 0]
     (by decide) (by decide)).1⟩

/-- C5 counterexample: a `BitArray` built through `from_words` can report a
saturation above 1 — `from_words [3] 1` has 2 set bits and capacity 1, so
`saturation` is 2. -/
theorem claim5_counterexample :
    BitArray.from_words [3] 1 = some ⟨[3], 1⟩ ∧
    ¬ (⟨[3], 1⟩ : BitArray).saturation ≤ 1 := by
  constructor
  · decide
  · have hc : (⟨[3], 1⟩ : BitArray).count_ones = 2 := by decide
    have : (⟨[3], 1⟩ : BitArray).saturation = 2 := by
      rw [BitArray.saturation, hc]
      norm_num
    rw [this]
    norm_num

/-- C5 (amended): `saturation` always returns `count_ones / capacity`, and
for a `BitArray` built by `new` and mutated by any sequence of `set`/`clear`
operations the value lies in `[0, 1]`; via `from_words` (stray words or
high bits) it can exceed 1. -/
theorem claim5_saturation_amended (cap : Nat) (b₀ b : BitArray)
    (ops : List BitArray.Op) (hnew : BitArray.new cap = some b₀)
    (hops : b₀.applyOps ops = some b) :
    b.saturation = (b.count_ones : ℚ) / (b.capacity : ℚ) ∧
    0 ≤ b.saturation ∧ b.saturation ≤ 1 := by
  obtain ⟨hInv, hcap⟩ := BitArray.applyOps_inv (BitArray.inv_new hnew) hops
  have hle := BitArray.count_ones_le_capacity hInv
  have hpos : 0 < cap := by
    by_contra hc
    rw [BitArray.new, if_neg (by omega)] at hnew
    exact Option.noConfusion hnew
  have hcappos : 0 < b.capacity := by
    rw [hcap, BitArray.new_capacity hnew]
    exact hpos
  refine ⟨rfl, by rw [BitArray.saturation]; positivity, ?_⟩
  rw [BitArray.saturation, div_le_one (by exact_mod_cast hcappos)]
  exact_mod_cast hle

theorem claim5_witness :
    BitArray.new 8 = some ⟨[0], 8⟩ ∧
    BitArray.applyOps ⟨[0], 8⟩ [BitArray.Op.setBit 3] = some ⟨[8], 8⟩ ∧
    (0 ≤ (⟨[8], 8⟩ : BitArray).saturation ∧
      (⟨[8], 8⟩ : BitArray).saturation ≤ 1) :=
  ⟨by decide, by decide,
   (claim5_saturation_amended 8 ⟨[0], 8⟩ ⟨[8], 8⟩ [BitArray.Op.setBit 3]
     (by decide) (by decide)).2⟩

/-- C6 counterexample: a `contains` call does not increment
`queries_performed` — the method takes `&self` and `record_query` is never
invoked, so the state after a query equals the state before (counter stays
0, never 0 + 1). -/
theorem claim6_counterexample :
    PrecisionBloom.step
      ⟨⟨[0], 1⟩, ⟨1, 1⟩, ⟨1, 1, 1, mkRat 1 2⟩, ⟨⟨1, 1, 1, mkRat 1 2⟩, 0, 0⟩⟩
      (PrecisionBloom.Call.contains (0, 0)) =
      some ⟨⟨[0], 1⟩, ⟨1, 1⟩, ⟨1, 1, 1, mkRat 1 2⟩,
        ⟨⟨1, 1, 1, mkRat 1 2⟩, 0, 0⟩⟩ ∧
    (⟨⟨[0], 1⟩, ⟨1, 1⟩, ⟨1, 1, 1, mkRat 1 2⟩, ⟨⟨1, 1, 1, mkRat 1 2⟩, 0, 0⟩⟩ :
        PrecisionBloom).tracker.queries_performed ≠
      (⟨⟨[0], 1⟩, ⟨1, 1⟩, ⟨1, 1, 1, mkRat 1 2⟩, ⟨⟨1, 1, 1, mkRat 1 2⟩, 0, 0⟩⟩ :
        PrecisionBloom).tracker.queries_performed + 1 := by
  constructor
  · decide
  · decide

/-- C6 (amended): `insert` increments `items_inserted` by one and leaves
`queries_performed` alone, `clear` resets both counters to zero, but
`contains`/`may_contain` leave the whole tracker (including
`queries_performed`) unchanged — `record_query` exists in the source yet is
never called. -/
theorem claim6_tracker_amended (f fq fm fi fc : PrecisionBloom)
    (x y z : Item)
    (hq : f.step (PrecisionBloom.Call.contains x) = some fq)
    (hm : f.step (PrecisionBloom.Call.may_contain y) = some fm)
    (hi : f.step (PrecisionBloom.Call.insert z) = some fi)
    (hc : f.step PrecisionBloom.Call.clear = some fc) :
    fq.tracker = f.tracker ∧ fm.tracker = f.tracker ∧
    fi.tracker.items_inserted = f.tracker.items_inserted + 1 ∧
    fi.tracker.queries_performed = f.tracker.queries_performed ∧
    fc.tracker.items_inserted = 0 ∧ fc.tracker.queries_performed = 0 := by
  obtain rfl := PrecisionBloom.step_contains_eq hq
  obtain rfl := PrecisionBloom.step_may_contain_eq hm
  obtain ⟨p, hp, rfl⟩ := PrecisionBloom.step_insert_eq hi
  obtain rfl := PrecisionBloom.step_clear_eq hc
  have ht := PrecisionBloom.insert_tracker hp
  rw [ht]
  exact ⟨rfl, rfl, rfl, rfl, rfl, rfl⟩

theorem claim6_witness :
    (⟨⟨[1], 1⟩, ⟨1, 1⟩, ⟨1, 1, 1, mkRat 1 2⟩, ⟨⟨1, 1, 1, mkRat 1 2⟩, 1, 0⟩⟩ :
        PrecisionBloom).tracker.items_inserted =
      (⟨⟨[0], 1⟩, ⟨1, 1⟩, ⟨1, 1, 1, mkRat 1 2⟩, ⟨⟨1, 1, 1, mkRat 1 2⟩, 0, 0⟩⟩ :
        PrecisionBloom).tracker.items_inserted + 1 :=
  (claim6_tracker_amended
    ⟨⟨[0], 1⟩, ⟨1, 1⟩, ⟨1, 1, 1, mkRat 1 2⟩, ⟨⟨1, 1, 1, mkRat 1 2⟩, 0, 0⟩⟩
    ⟨⟨[0], 1⟩, ⟨1, 1⟩, ⟨1, 1, 1, mkRat 1 2⟩, ⟨⟨1, 1, 1, mkRat 1 2⟩, 0, 0⟩⟩
    ⟨⟨[0], 1⟩, ⟨1, 1⟩, ⟨1, 1, 1, mkRat 1 2⟩, ⟨⟨1, 1, 1, mkRat 1 2⟩, 0, 0⟩⟩
    ⟨⟨[1], 1⟩, ⟨1, 1⟩, ⟨1, 1, 1, mkRat 1 2⟩, ⟨⟨1, 1, 1, mkRat 1 2⟩, 1, 0⟩⟩
    ⟨⟨[0], 1⟩, ⟨1, 1⟩, ⟨1, 1, 1, mkRat 1 2⟩, ⟨⟨1, 1, 1, mkRat 1 2⟩, 0, 0⟩⟩
    (0, 0) (0, 0) (0, 0)
    (by decide) (by decide) (by decide) (by decide)).2.2.1

/-- C8: `from_item_count` computes `m = ceil(-n ln p / ln(2)^2)` and
`k = max(1, ceil((m/n) ln 2))` (that is the definition embedded here); at
`n = 1000`, `p = 0.01` the result has `num_bits` in `(9000, 10000)` and
`num_hashes` in `(6, 8)`. -/
theorem claim8_parameter_ranges :
    ∃ P, BloomParameters.from_item_count 1000 (1 / 100) = some P ∧
      9000 < P.num_bits ∧ P.num_bits < 10000 ∧
      6 < P.num_hashes ∧ P.num_hashes < 8 := by
  have hS : (0 : ℝ) < Real.log 2 * Real.log 2 :=
    lt_trans (by norm_num) lt_log_two_sq
  have hL1 := lt_log_hundred
  have hL2 := log_hundred_lt
  have hS1 := lt_log_two_sq
  have hS2 := log_two_sq_lt
  have hgt2 := Real.log_two_gt_d9
  have hlt2 := Real.log_two_lt_d9
  have hcast : (((1 : ℚ) / 100 : ℚ) : ℝ) = 1 / 100 := by
    push_cast
    ring
  have hlog : Real.log ((1 : ℝ) / 100) = -Real.log 100 := by
    rw [one_div, Real.log_inv]
  set x : ℝ := -((1000 : Nat) : ℝ) * Real.log (((1 : ℚ) / 100 : ℚ) : ℝ) /
    (Real.log 2 * Real.log 2) with hxdef
  have hxeq : x = 1000 * Real.log 100 / (Real.log 2 * Real.log 2) := by
    rw [hxdef, hcast, hlog]
    push_cast
    ring
  have hlo : (9516 : ℝ) < x := by
    rw [hxeq, lt_div_iff₀ hS]
    nlinarith
  have hhi : x ≤ 9600 := by
    rw [hxeq, div_le_iff₀ hS]
    nlinarith
  have h1 : (9516 : ℤ) < ⌈x⌉ := by
    rw [Int.lt_ceil]
    exact_mod_cast hlo
  have h2 : ⌈x⌉ ≤ 9600 := by
    rw [Int.ceil_le]
    exact_mod_cast hhi
  have hMn1 : 9516 < (⌈x⌉).toNat := by omega
  have hMn2 : (⌈x⌉).toNat ≤ 9600 := by omega
  have hMcast_lo : (9517 : ℝ) ≤ (((⌈x⌉).toNat : Nat) : ℝ) := by
    have : 9517 ≤ (⌈x⌉).toNat := by omega
    exact_mod_cast this
  have hMcast_hi : (((⌈x⌉).toNat : Nat) : ℝ) ≤ 9600 := by
    exact_mod_cast hMn2
  have hprod_lo : (9517 : ℝ) * 0.6931471803 ≤
      (((⌈x⌉).toNat : Nat) : ℝ) * Real.log 2 :=
    mul_le_mul hMcast_lo hgt2.le (by norm_num) (by positivity)
  have hprod_hi : (((⌈x⌉).toNat : Nat) : ℝ) * Real.log 2 ≤
      (9600 : ℝ) * 0.6931471808 :=
    mul_le_mul hMcast_hi hlt2.le (by positivity) (by norm_num)
  have hk_lo : (6 : ℝ) < (((⌈x⌉).toNat : Nat) : ℝ) / ((1000 : Nat) : ℝ) *
      Real.log 2 := by
    rw [div_mul_eq_mul_div, lt_div_iff₀ (by norm_num : (0 : ℝ) < ((1000:Nat):ℝ))]
    push_cast
    nlinarith
  have hk_hi : (((⌈x⌉).toNat : Nat) : ℝ) / ((1000 : Nat) : ℝ) * Real.log 2
      ≤ 7 := by
    rw [div_mul_eq_mul_div, div_le_iff₀ (by norm_num : (0 : ℝ) < ((1000:Nat):ℝ))]
    push_cast
    nlinarith
  have hk1 : (6 : ℤ) < ⌈(((⌈x⌉).toNat : Nat) : ℝ) / ((1000 : Nat) : ℝ) *
      Real.log 2⌉ := by
    rw [Int.lt_ceil]
    exact_mod_cast hk_lo
  have hk2 : ⌈(((⌈x⌉).toNat : Nat) : ℝ) / ((1000 : Nat) : ℝ) * Real.log 2⌉
      ≤ 7 := by
    rw [Int.ceil_le]
    exact_mod_cast hk_hi
  refine ⟨{ num_bits := (⌈x⌉).toNat,
            num_hashes := max (⌈(((⌈x⌉).toNat : Nat) : ℝ) / ((1000 : Nat) : ℝ) *
              Real.log 2⌉).toNat 1,
            expected_items := 1000, false_positive_rate := 1 / 100 },
    ?_, ?_, ?_, ?_, ?_⟩
  · rw [BloomParameters.from_item_count, if_pos (by norm_num)]
  · show 9000 < (⌈x⌉).toNat
    omega
  · show (⌈x⌉).toNat < 10000
    omega
  · show 6 < max (⌈(((⌈x⌉).toNat : Nat) : ℝ) / ((1000 : Nat) : ℝ) *
      Real.log 2⌉).toNat 1
    omega
  · show max (⌈(((⌈x⌉).toNat : Nat) : ℝ) / ((1000 : Nat) : ℝ) *
      Real.log 2⌉).toNat 1 < 8
    omega

/-- C9: `is_overfilled` is exactly `items_inserted > expected_items`,
`insert` keeps succeeding on any well-formed filter (no rejection past
capacity), and a `(10, 0.01)` filter (the solver yields exactly
`m = 96`, `k = 7`) is overfilled after 11 inserts with `actual_fpr`
strictly above the configured theoretical rate (`0.01 = mkRat 1 100`). -/
theorem claim9_overfill (f₀ f₁ : PrecisionBloom) (xs : List Item)
    (hnew : PrecisionBloom.new ⟨96, 7, 10, mkRat 1 100⟩ = some f₀)
    (hlen : xs.length = 11)
    (hseq : PrecisionBloom.insertSeq f₀ xs = some f₁) :
    BloomParameters.from_item_count 10 (mkRat 1 100) =
      some ⟨96, 7, 10, mkRat 1 100⟩ ∧
    (∀ t : AccuracyTracker,
      t.is_overfilled = true ↔ t.params.expected_items < t.items_inserted) ∧
    (∀ g : PrecisionBloom, ∀ y : Item, g.WF → (g.insert y).isSome) ∧
    f₁.is_overfilled = true ∧
    f₁.tracker.theoretical_fpr = mkRat 1 100 ∧
    ((f₁.tracker.theoretical_fpr : ℚ) : ℝ) < f₁.tracker.actual_fpr := by
  obtain ⟨hwf₀, hp₀, ht₀, -, -⟩ := PrecisionBloom.new_spec hnew
  obtain ⟨hitems, hparams, -, -⟩ := PrecisionBloom.insertSeq_tracker hwf₀ hseq
  rw [ht₀] at hitems hparams
  simp only [AccuracyTracker.new] at hitems hparams
  rw [hlen] at hitems
  have hitems11 : f₁.tracker.items_inserted = 11 := by omega
  have hth : f₁.tracker.theoretical_fpr = mkRat 1 100 := by
    rw [AccuracyTracker.theoretical_fpr, hparams]
  refine ⟨from_item_count_10,
    fun t => by simp [AccuracyTracker.is_overfilled],
    fun g y hg => PrecisionBloom.insert_isSome g y hg, ?_, hth, ?_⟩
  · rw [PrecisionBloom.is_overfilled, AccuracyTracker.is_overfilled,
      hitems11, hparams]
    decide
  · rw [hth, mkRat_hundredth_cast, AccuracyTracker.actual_fpr,
      if_neg (by omega), hitems11, hparams]
    exact calculate_fpr_96_7_11

theorem claim9_witness :
    PrecisionBloom.new ⟨96, 7, 10, mkRat 1 100⟩ =
      some ⟨⟨[0, 0], 96⟩, ⟨7, 96⟩, ⟨96, 7, 10, mkRat 1 100⟩,
        ⟨⟨96, 7, 10, mkRat 1 100⟩, 0, 0⟩⟩ ∧
    (⟨⟨[1, 0], 96⟩, ⟨7, 96⟩, ⟨96, 7, 10, mkRat 1 100⟩,
      ⟨⟨96, 7, 10, mkRat 1 100⟩, 11, 0⟩⟩ : PrecisionBloom).is_overfilled
        = true :=
  ⟨by decide,
   (claim9_overfill
     ⟨⟨[0, 0], 96⟩, ⟨7, 96⟩, ⟨96, 7, 10, mkRat 1 100⟩,
       ⟨⟨96, 7, 10, mkRat 1 100⟩, 0, 0⟩⟩
     ⟨⟨[1, 0], 96⟩, ⟨7, 96⟩, ⟨96, 7, 10, mkRat 1 100⟩,
       ⟨⟨96, 7, 10, mkRat 1 100⟩, 11, 0⟩⟩
     (List.replicate 11 (0, 0)) (by decide) (by decide)
     (by decide)).2.2.2.1⟩
